import Mathlib

/-
Verification of the expense-splitter ledger core from
src/AdvancedBudgetTracker/expense-splitter/src/App.jsx.

The JavaScript source is shallowly embedded below:

* currency amounts become `ℚ` (the source uses JS numbers; all amounts in
  the claims are exact decimals, and the source's arithmetic on them is
  the field arithmetic modelled exactly by `ℚ`);
* JS objects become structures; the `balances` object (whose keys are the
  group's member ids, inserted in member order) becomes an association
  list `List (String × ℚ)` in the same key order;
* `crypto.randomUUID()` and `new Date().toISOString()` are modelled by
  explicitly supplied fresh-id / date arguments;
* operations that can throw in JS (a failed `group.members.find(...)`
  dereference, a missing group) return `Option`, with `none` for the
  crash, and UI validation paths that refuse to submit return `none` for
  the refused (never-appended) submission;
* `String.prototype.trim` is modelled by `jsTrim`, a structural
  whitespace trim (the library `String.trim` does not reduce in the
  kernel, so a list-based equivalent is used);
* the stable `Array.prototype.sort` with comparator
  `(a, b) => b.amount - a.amount` (a stable descending sort by `amount`)
  is modelled by a stable descending insertion sort `sortDesc`: a stable
  sort's output is uniquely determined by the comparator and the input
  order, so this is the same reordering the source computes;
* the `while` loop of `settleDebts` (source lines 175-194) is embedded as
  `settleLoopFuel`, structural recursion on a fuel bounded by the number
  of remaining list elements; every iteration of the source loop removes
  at least one element from consideration (the side whose residual hits
  zero advances), so fuel `creditors.length + debtors.length` is always
  sufficient, which is proved as the termination half of the C4 theorem.
-/

-- Batteries marks the Rat arithmetic operations `@[irreducible]`, which
-- only blocks elaborator-side reduction (the kernel ignores reducibility).
-- Restore the default so that `decide` can evaluate the embedded
-- operations on concrete inputs; proofs are unaffected.
attribute [local semireducible] Rat.add Rat.sub Rat.mul Rat.inv

namespace ExpenseSplitter

/-- One group member: `{ name, id: crypto.randomUUID() }` (App.jsx line 84). -/
structure Member where
  id : String
  name : String
deriving DecidableEq, Repr

/-- A group: `{ id, name, members, createdAt }` (App.jsx lines 81-89). -/
structure Group where
  id : String
  name : String
  members : List Member
  createdAt : String
deriving DecidableEq, Repr

/-- One split of an expense: `{ memberId, amount }` (App.jsx lines 102-105). -/
structure Split where
  memberId : String
  amount : ℚ
deriving DecidableEq, Repr

/-- An expense record (App.jsx lines 110-119). -/
structure Expense where
  id : String
  groupId : String
  description : String
  amount : ℚ
  paidBy : String
  splits : List Split
  splitType : String
  date : String
deriving DecidableEq, Repr

/-- A payment record (App.jsx lines 200-207). -/
structure Payment where
  id : String
  groupId : String
  fromId : String
  toId : String
  amount : ℚ
  date : String
deriving DecidableEq, Repr

/-- A settlement emitted by `settleDebts` (App.jsx lines 181-187).
The source fields `from` and `to` are Lean keywords and are embedded as
`fromName` and `toName`. -/
structure Settlement where
  fromName : String
  fromId : String
  toName : String
  toId : String
  amount : ℚ
deriving DecidableEq, Repr

/-- A creditor or debtor entry `{ memberId, amount }` built at
App.jsx lines 164-170. -/
structure Entry where
  memberId : String
  amount : ℚ
deriving DecidableEq, Repr

/-- The in-memory store: the `groups`, `expenses` and `payments` React
state collections (App.jsx lines 38-40). -/
structure Store where
  groups : List Group
  expenses : List Expense
  payments : List Payment
deriving DecidableEq, Repr

/-- The 0.01 currency tolerance appearing at App.jsx lines 165, 167,
192, 193 and 654. -/
def tol : ℚ := 1 / 100

/-- Model of JavaScript `String.prototype.trim`: drop whitespace from
both ends (structural, so it evaluates in the kernel). -/
def jsTrim (s : String) : String :=
  String.mk (((s.toList.dropWhile Char.isWhitespace).reverse.dropWhile
    Char.isWhitespace).reverse)

/-- `addGroup(name, members)` (App.jsx lines 80-94): appends one group,
pairing each member name with a fresh id. The source draws ids from
`crypto.randomUUID()`; here the group id `gid` and the member ids `mids`
are supplied explicitly. -/
def addGroup (groups : List Group) (gid : String) (mids : List String)
    (createdAt : String) (name : String) (members : List String) : List Group :=
  groups ++ [⟨gid, name, (members.zip mids).map (fun p => ⟨p.2, p.1⟩), createdAt⟩]

/-- The member list accumulated by `AddGroupModal.addMember`
(App.jsx lines 541-546): each input is trimmed, and appended only when
nonempty and not already present. -/
def collectMembers (inputs : List String) : List String :=
  inputs.foldl
    (fun members input =>
      if jsTrim input != "" && !(members.contains (jsTrim input)) then
        members ++ [jsTrim input]
      else members)
    []

/-- `AddGroupModal.handleSubmit` (App.jsx lines 552-556) composed with
`addGroup`: submission happens only when the trimmed name is nonempty and
at least two (deduplicated, trimmed) members were collected; otherwise
nothing is appended, modelled as `none`. -/
def groupSubmit (groups : List Group) (gid : String) (mids : List String)
    (createdAt : String) (name : String) (inputs : List String) :
    Option (List Group) :=
  let members := collectMembers inputs
  if jsTrim name != "" && decide (2 ≤ members.length) then
    some (addGroup groups gid mids createdAt name members)
  else none

/-- `addExpense` (App.jsx lines 96-125): appends one expense. For an
equal split the per-person share is `amount / group.members.length` for
every member; for a custom split the supplied splits are stored as-is.
If the group id is unknown and the split is equal, the source crashes on
`group.members` (modelled as `none`). -/
def addExpense (groups : List Group) (expenses : List Expense)
    (newId date groupId description : String) (amount : ℚ) (paidBy : String)
    (splitType : String) (customSplits : List Split) : Option (List Expense) :=
  if splitType == "equal" then
    match groups.find? (fun g => g.id == groupId) with
    | none => none
    | some group =>
      let perPerson := amount / (group.members.length : ℚ)
      let splits := group.members.map (fun m => (⟨m.id, perPerson⟩ : Split))
      some (expenses ++ [⟨newId, groupId, description, amount, paidBy, splits, splitType, date⟩])
  else
    let splits := if splitType == "custom" then customSplits else []
    some (expenses ++ [⟨newId, groupId, description, amount, paidBy, splits, splitType, date⟩])

/-- Add `v` to the value stored under key `k` (the effect of
`balances[k] += v`; `-= v` is `bump bal k (-v)`). A JS object holds each
key once, so updating every matching pair coincides with the source on
the states the claims quantify over; a `k` absent from the object would
produce `NaN` in the source and is exercised by no claim. -/
def bump (bal : List (String × ℚ)) (k : String) (v : ℚ) : List (String × ℚ) :=
  bal.map (fun p => if p.1 = k then (p.1, p.2 + v) else p)

/-- The effect of one expense on the balances object
(App.jsx lines 142-147): credit the payer with the full amount, then
debit each split's member by the split amount. -/
def applyExpense (bal : List (String × ℚ)) (e : Expense) : List (String × ℚ) :=
  e.splits.foldl (fun b s => bump b s.memberId (-s.amount)) (bump bal e.paidBy e.amount)

/-- The effect of one payment on the balances object
(App.jsx lines 150-153): credit the payer, debit the receiver. -/
def applyPayment (bal : List (String × ℚ)) (p : Payment) : List (String × ℚ) :=
  bump (bump bal p.fromId p.amount) p.toId (-p.amount)

/-- `calculateBalances(groupId)` (App.jsx lines 128-157): zero-initialise
one slot per group member (in member order, which is the enumeration
order of the JS object), fold the group's expenses, then the group's
payments. An unknown group id yields the empty object. -/
def calculateBalances (groups : List Group) (expenses : List Expense)
    (payments : List Payment) (groupId : String) : List (String × ℚ) :=
  match groups.find? (fun g => g.id == groupId) with
  | none => []
  | some group =>
    let init := group.members.map (fun m => (m.id, (0 : ℚ)))
    let afterExpenses :=
      (expenses.filter (fun e => e.groupId == groupId)).foldl applyExpense init
    (payments.filter (fun p => p.groupId == groupId)).foldl applyPayment afterExpenses

/-- The creditor list of App.jsx lines 164-170: entries with balance
above the tolerance, in balance-object order. -/
def creditorsOf (balances : List (String × ℚ)) : List Entry :=
  balances.filterMap (fun p => if tol < p.2 then some ⟨p.1, p.2⟩ else none)

/-- The debtor list of App.jsx lines 164-170: entries with balance below
minus the tolerance, carrying `Math.abs(balance)`. -/
def debtorsOf (balances : List (String × ℚ)) : List Entry :=
  balances.filterMap (fun p => if p.2 < -tol then some ⟨p.1, |p.2|⟩ else none)

/-- Stable insertion step for the descending sort: walk past strictly
larger amounts, insert before the first amount not larger (so earlier
elements win ties, as in the source's stable sort). -/
def insertDesc (e : Entry) : List Entry → List Entry
  | [] => [e]
  | x :: xs => if e.amount < x.amount then x :: insertDesc e xs else e :: x :: xs

/-- `list.sort((a, b) => b.amount - a.amount)` (App.jsx lines 172-173): a
stable descending sort by amount. -/
def sortDesc (l : List Entry) : List Entry :=
  l.foldr insertDesc []

/-- The two-cursor greedy `while` loop of `settleDebts`
(App.jsx lines 175-194), embedded with structural fuel. One source
iteration: `payment = min(creditors[i].amount, debtors[j].amount)`; look
up both members (a dangling id crashes the source: `none` here); push the
settlement; decrement both sides by `payment`; advance the creditor
cursor when its residual falls below 0.01 and likewise the debtor cursor.
The advancing cursors are embedded by consuming list heads: the side
achieving the minimum always drops to residual `0 < 0.01` and advances,
the other side keeps its residual as a new head unless that residual is
below 0.01 as well. -/
def settleLoopFuel (members : List Member) :
    Nat → List Entry → List Entry → Option (List Settlement)
  | fuel + 1, c :: cs, d :: ds =>
    match members.find? (fun m => m.id == d.memberId),
        members.find? (fun m => m.id == c.memberId) with
    | some fromMember, some toMember =>
      let payment := min c.amount d.amount
      let rest :=
        if c.amount ≤ d.amount then
          if d.amount - payment < tol then settleLoopFuel members fuel cs ds
          else settleLoopFuel members fuel cs (⟨d.memberId, d.amount - payment⟩ :: ds)
        else
          if c.amount - payment < tol then settleLoopFuel members fuel cs ds
          else settleLoopFuel members fuel (⟨c.memberId, c.amount - payment⟩ :: cs) ds
      rest.map (fun settlements =>
        ⟨fromMember.name, fromMember.id, toMember.name, toMember.id, payment⟩ :: settlements)
    | _, _ => none
  | _, _, _ => some []

/-- `settleDebts(balances, group)` (App.jsx lines 159-197): partition the
balances into creditors and debtors, sort both descending by amount, run
the greedy loop. Initial fuel `creditors.length + debtors.length` bounds
the iteration count (see the C4 theorem). -/
def settleDebts (balances : List (String × ℚ)) (group : Group) :
    Option (List Settlement) :=
  let creditors := sortDesc (creditorsOf balances)
  let debtors := sortDesc (debtorsOf balances)
  settleLoopFuel group.members (creditors.length + debtors.length) creditors debtors

/-- `recordPayment(groupId, fromId, toId, amount)` (App.jsx lines
199-212): unconditionally appends one payment; `groups` and `expenses`
are passed through to `saveData` unchanged. -/
def recordPayment (st : Store) (newId date groupId fromId toId : String)
    (amount : ℚ) : Store :=
  ⟨st.groups, st.expenses, st.payments ++ [⟨newId, groupId, fromId, toId, amount, date⟩]⟩

/-- `AddExpenseModal.validateCustomSplits` (App.jsx lines 650-666) over
the modal's split rows. A row's text field is modelled as `Option ℚ`:
`none` for the empty string, `some q` for a numeral of value `q`; the
source's `parseFloat(s.amount) || 0` is `Option.getD 0`, and
`!s.amount || parseFloat(s.amount) <= 0` is `isNone || value ≤ 0`
(the string "0" is truthy in JS but its value 0 fails the `<= 0` test,
so both models reject exactly the same rows). -/
def splitsTotal (customSplits : List (String × Option ℚ)) : ℚ :=
  customSplits.foldl (fun sum s => sum + s.2.getD 0) 0

/-- The boolean verdict of `validateCustomSplits`: reject when the split
total differs from the expense amount by more than 0.01, or when some row
is empty or non-positive. -/
def validateCustomSplits (amount : ℚ) (customSplits : List (String × Option ℚ)) : Bool :=
  if tol < |amount - splitsTotal customSplits| then false
  else if customSplits.any (fun s => s.2.isNone || decide (s.2.getD 0 ≤ 0)) then false
  else true

/-- `AddExpenseModal.handleSubmit` (App.jsx lines 668-683) composed with
`addExpense`: refuse (append nothing, `none`) when the trimmed
description is empty, the amount field is empty or `paidBy` is empty;
for a custom split additionally refuse when `validateCustomSplits` fails;
otherwise hand the parsed values to `addExpense`. -/
def expenseSubmit (groups : List Group) (group : Group) (expenses : List Expense)
    (newId date : String) (description : String) (amount : Option ℚ)
    (paidBy : String) (splitType : String)
    (customSplits : List (String × Option ℚ)) : Option (List Expense) :=
  if jsTrim description == "" || amount.isNone || paidBy == "" then none
  else
    let amt := amount.getD 0
    if splitType == "custom" && !(validateCustomSplits amt customSplits) then none
    else
      let finalSplits :=
        if splitType == "custom" then
          customSplits.map (fun s => (⟨s.1, s.2.getD 0⟩ : Split))
        else []
      addExpense groups expenses newId date group.id description amt paidBy
        splitType finalSplits

/-- Sum of the values of a balances object (the quantity the sum-to-zero
claims are about). -/
def balanceSum : List (String × ℚ) → ℚ
  | [] => 0
  | p :: l => p.2 + balanceSum l

/-- Sum of the balances recorded for `id` (with unique keys, the balance
of `id`, or 0 when absent). -/
def keyedBalance (id : String) : List (String × ℚ) → ℚ
  | [] => 0
  | p :: l => (if p.1 == id then p.2 else 0) + keyedBalance id l

/-- Total amount in a creditor/debtor entry list. -/
def entrySum : List Entry → ℚ
  | [] => 0
  | e :: l => e.amount + entrySum l

/-- Total amount of the entries recorded for `id`. -/
def idSum (id : String) : List Entry → ℚ
  | [] => 0
  | e :: l => (if e.memberId == id then e.amount else 0) + idSum id l

/-- Total amount transferred to `id` by a settlement list. -/
def received (id : String) : List Settlement → ℚ
  | [] => 0
  | s :: l => (if s.toId == id then s.amount else 0) + received id l

/-- Total amount transferred out of `id` by a settlement list. -/
def paid (id : String) : List Settlement → ℚ
  | [] => 0
  | s :: l => (if s.fromId == id then s.amount else 0) + paid id l

/-- An amount that is a positive whole number of cents (used by the
amended C2: balances that are whole cents and outside the tolerance
band give creditor/debtor entries of this shape). -/
def PosCent (q : ℚ) : Prop := ∃ n : ℕ, 0 < n ∧ q = (n : ℚ) / 100

/-- Concrete two-member group used by counterexamples and witnesses. -/
def gAB : Group :=
  ⟨"g2", "Pair", [⟨"a", "A"⟩, ⟨"b", "B"⟩], "t0"⟩

/-- Concrete three-member group used by the equal-split example. -/
def gABC : Group :=
  ⟨"g3", "Trio", [⟨"a", "A"⟩, ⟨"b", "B"⟩, ⟨"c", "C"⟩], "t0"⟩

/-- Concrete custom-split expense for `gAB` whose splits (49.995 and 50)
sum to 99.995: inside the source's 0.01 split-sum tolerance, but not
exactly equal to the 100 amount. -/
def customDriftExpense : Expense :=
  ⟨"e1", "g2", "Trip", 100, "a", [⟨"a", 9999/200⟩, ⟨"b", 50⟩], "custom", "d1"⟩

theorem tol_pos : (0 : ℚ) < tol := by norm_num [tol]

theorem insertDesc_perm (e : Entry) (l : List Entry) :
    List.Perm (insertDesc e l) (e :: l) := by
  induction l with
  | nil => simp [insertDesc]
  | cons x xs ih =>
    rw [insertDesc]
    split
    · exact (ih.cons x).trans (List.Perm.swap e x xs)
    · exact List.Perm.refl _

theorem sortDesc_perm (l : List Entry) : List.Perm (sortDesc l) l := by
  induction l with
  | nil => exact List.Perm.refl _
  | cons x xs ih => exact (insertDesc_perm x (sortDesc xs)).trans (ih.cons x)

theorem length_sortDesc (l : List Entry) : (sortDesc l).length = l.length :=
  (sortDesc_perm l).length_eq

theorem mem_creditorsOf {b : List (String × ℚ)} {e : Entry}
    (he : e ∈ creditorsOf b) : ∃ p ∈ b, tol < p.2 ∧ e = ⟨p.1, p.2⟩ := by
  simp only [creditorsOf, List.mem_filterMap] at he
  obtain ⟨p, hp, hpe⟩ := he
  by_cases h : tol < p.2
  · rw [if_pos h] at hpe
    exact ⟨p, hp, h, (Option.some_inj.mp hpe).symm⟩
  · rw [if_neg h] at hpe
    cases hpe

theorem mem_debtorsOf {b : List (String × ℚ)} {e : Entry}
    (he : e ∈ debtorsOf b) : ∃ p ∈ b, p.2 < -tol ∧ e = ⟨p.1, |p.2|⟩ := by
  simp only [debtorsOf, List.mem_filterMap] at he
  obtain ⟨p, hp, hpe⟩ := he
  by_cases h : p.2 < -tol
  · rw [if_pos h] at hpe
    exact ⟨p, hp, h, (Option.some_inj.mp hpe).symm⟩
  · rw [if_neg h] at hpe
    cases hpe

theorem creditorsOf_pos {b : List (String × ℚ)} {e : Entry}
    (he : e ∈ creditorsOf b) : 0 < e.amount := by
  obtain ⟨p, _, hpt, rfl⟩ := mem_creditorsOf he
  exact lt_trans tol_pos hpt

theorem debtorsOf_pos {b : List (String × ℚ)} {e : Entry}
    (he : e ∈ debtorsOf b) : 0 < e.amount := by
  obtain ⟨p, _, hpt, rfl⟩ := mem_debtorsOf he
  have : p.2 < 0 := lt_trans hpt (by simpa using tol_pos)
  simpa using abs_pos.mpr (ne_of_lt this)

theorem nodup_keys_eq {l : List (String × ℚ)} (h : (l.map Prod.fst).Nodup)
    {p q : String × ℚ} (hp : p ∈ l) (hq : q ∈ l) (hk : p.1 = q.1) : p = q := by
  induction l with
  | nil => cases hp
  | cons x xs ih =>
    simp only [List.map_cons, List.nodup_cons] at h
    cases hp with
    | head =>
      cases hq with
      | head => rfl
      | tail _ hq1 =>
        have : q.1 ∈ xs.map Prod.fst := List.mem_map_of_mem Prod.fst hq1
        exact absurd (hk ▸ this) h.1
    | tail _ hp1 =>
      cases hq with
      | head =>
        have : p.1 ∈ xs.map Prod.fst := List.mem_map_of_mem Prod.fst hp1
        exact absurd (hk ▸ this) h.1
      | tail _ hq1 => exact ih h.2 hp1 hq1

/-- Per-settlement invariant of the greedy loop: whenever the loop
returns a settlement list, each settlement carries a positive amount, a
debtor id drawn from the debtor list, a creditor id drawn from the
creditor list, and names resolved against actual members. -/
theorem settleLoopFuel_shape (members : List Member) :
    ∀ fuel cs ds l,
    (∀ e ∈ cs, 0 < e.amount) → (∀ e ∈ ds, 0 < e.amount) →
    settleLoopFuel members fuel cs ds = some l →
    ∀ s ∈ l, 0 < s.amount
      ∧ s.fromId ∈ ds.map Entry.memberId ∧ s.toId ∈ cs.map Entry.memberId
      ∧ (∃ m ∈ members, m.id = s.fromId ∧ m.name = s.fromName)
      ∧ (∃ m ∈ members, m.id = s.toId ∧ m.name = s.toName) := by
  intro fuel
  induction fuel with
  | zero =>
    intro cs ds l _ _ hl s hs
    simp only [settleLoopFuel] at hl
    cases hl
    cases hs
  | succ fuel ih =>
    intro cs ds l hcs hds hl s hs
    match cs, ds with
    | [], ds =>
      simp only [settleLoopFuel] at hl
      cases hl
      cases hs
    | c :: cs, [] =>
      simp only [settleLoopFuel] at hl
      cases hl
      cases hs
    | c :: cs, d :: ds =>
      rw [settleLoopFuel] at hl
      cases hfrom : members.find? (fun m => m.id == d.memberId) with
      | none => rw [hfrom] at hl; simp at hl
      | some fromMember =>
        cases hto : members.find? (fun m => m.id == c.memberId) with
        | none => rw [hfrom, hto] at hl; simp at hl
        | some toMember =>
          rw [hfrom, hto] at hl
          simp only [Option.map_eq_some'] at hl
          obtain ⟨l1, hrest, rfl⟩ := hl
          have hfmem : fromMember ∈ members := List.mem_of_find?_eq_some hfrom
          have htmem : toMember ∈ members := List.mem_of_find?_eq_some hto
          have hfid : fromMember.id = d.memberId := by
            have := List.find?_some hfrom
            exact eq_of_beq (by simpa using this)
          have htid : toMember.id = c.memberId := by
            have := List.find?_some hto
            exact eq_of_beq (by simpa using this)
          have hc0 : 0 < c.amount := hcs c (List.mem_cons_self c cs)
          have hd0 : 0 < d.amount := hds d (List.mem_cons_self d ds)
          have hcs1 : ∀ e ∈ cs, 0 < e.amount :=
            fun e he => hcs e (List.mem_cons_of_mem c he)
          have hds1 : ∀ e ∈ ds, 0 < e.amount :=
            fun e he => hds e (List.mem_cons_of_mem d he)
          cases hs with
          | head =>
            refine ⟨lt_min hc0 hd0, ?_, ?_, ⟨fromMember, hfmem, rfl, rfl⟩,
              ⟨toMember, htmem, rfl, rfl⟩⟩
            · simp [hfid]
            · simp [htid]
          | tail _ hs1 =>
            by_cases hcd : c.amount ≤ d.amount
            · rw [if_pos hcd] at hrest
              by_cases hd2 : d.amount - min c.amount d.amount < tol
              · rw [if_pos hd2] at hrest
                obtain ⟨h1, h2, h3, h4, h5⟩ := ih cs ds l1 hcs1 hds1 hrest s hs1
                exact ⟨h1, by simp [List.mem_cons_of_mem, h2],
                  by simp [List.mem_cons_of_mem, h3], h4, h5⟩
              · rw [if_neg hd2] at hrest
                have hds2 : ∀ e ∈ (⟨d.memberId, d.amount - min c.amount d.amount⟩ :
                    Entry) :: ds, 0 < e.amount := by
                  intro e he
                  cases he with
                  | head => exact lt_of_lt_of_le tol_pos (not_lt.mp hd2)
                  | tail _ h => exact hds1 e h
                obtain ⟨h1, h2, h3, h4, h5⟩ := ih cs _ l1 hcs1 hds2 hrest s hs1
                refine ⟨h1, ?_, by simp [List.mem_cons_of_mem, h3], h4, h5⟩
                simpa using h2
            · rw [if_neg hcd] at hrest
              by_cases hc2 : c.amount - min c.amount d.amount < tol
              · rw [if_pos hc2] at hrest
                obtain ⟨h1, h2, h3, h4, h5⟩ := ih cs ds l1 hcs1 hds1 hrest s hs1
                exact ⟨h1, by simp [List.mem_cons_of_mem, h2],
                  by simp [List.mem_cons_of_mem, h3], h4, h5⟩
              · rw [if_neg hc2] at hrest
                have hcs2 : ∀ e ∈ (⟨c.memberId, c.amount - min c.amount d.amount⟩ :
                    Entry) :: cs, 0 < e.amount := by
                  intro e he
                  cases he with
                  | head => exact lt_of_lt_of_le tol_pos (not_lt.mp hc2)
                  | tail _ h => exact hcs1 e h
                obtain ⟨h1, h2, h3, h4, h5⟩ := ih _ ds l1 hcs2 hds1 hrest s hs1
                refine ⟨h1, by simp [List.mem_cons_of_mem, h2], ?_, h4, h5⟩
                simpa using h3

/-- C5: the 90-unit equal-split dinner on the three-member group. The
recorded expense splits 30/30/30, the balances come out
`{A: +60, B: -30, C: -30}`, and the planner emits exactly the transfers
`B -> A 30` and `C -> A 30`. -/
theorem equal_split_dinner_example :
    addExpense [gABC] [] "e1" "d1" "g3" "Dinner" 90 "a" "equal" [] =
      some [⟨"e1", "g3", "Dinner", 90, "a",
        [⟨"a", 30⟩, ⟨"b", 30⟩, ⟨"c", 30⟩], "equal", "d1"⟩]
    ∧ calculateBalances [gABC]
        [⟨"e1", "g3", "Dinner", 90, "a",
          [⟨"a", 30⟩, ⟨"b", 30⟩, ⟨"c", 30⟩], "equal", "d1"⟩] [] "g3"
        = [("a", 60), ("b", -30), ("c", -30)]
    ∧ settleDebts [("a", 60), ("b", -30), ("c", -30)] gABC =
        some [⟨"B", "b", "A", "a", 30⟩, ⟨"C", "c", "A", "a", 30⟩] := by
  decide

/-- C1 counterexample: an expense whose references all lie in the group
and whose custom splits even satisfy the source's 0.01 split-sum
tolerance, yet the balances sum to 1/200, which is neither 0 nor within
1e-9 of 0. -/
theorem balanceSum_nonzero_counterexample :
    customDriftExpense.paidBy ∈ gAB.members.map Member.id
    ∧ (∀ s ∈ customDriftExpense.splits, s.memberId ∈ gAB.members.map Member.id)
    ∧ |customDriftExpense.amount -
        (customDriftExpense.splits.map Split.amount).sum| ≤ tol
    ∧ balanceSum (calculateBalances [gAB] [customDriftExpense] [] "g2") = 1/200
    ∧ ¬ balanceSum (calculateBalances [gAB] [customDriftExpense] [] "g2") = 0
    ∧ ¬ |balanceSum (calculateBalances [gAB] [customDriftExpense] [] "g2")|
        < 1/1000000000 := by
  decide

/-- C2 counterexample: member `a` has balance 1/200, inside the 0.01
tolerance band the claim explicitly includes; the planner emits no
transfers at all, so the per-member sum of transfers (0) does not
reconstruct the original balance (1/200). -/
theorem settleDebts_reconstruction_counterexample :
    settleDebts [("a", 1/200), ("b", -1/200)] gAB = some []
    ∧ keyedBalance "a" [("a", 1/200), ("b", -1/200)] = 1/200
    ∧ |keyedBalance "a" [("a", 1/200), ("b", -1/200)]| ≤ tol
    ∧ received "a" [] - paid "a" [] = 0
    ∧ ¬ received "a" [] - paid "a" []
        = keyedBalance "a" [("a", 1/200), ("b", -1/200)] := by
  decide

/-- C7 counterexample: the submit pipeline appends expenses the claim
says must be rejected: an equal-split expense with amount -5 (≤ 0), an
expense whose payer `zz` is not a group member, and a custom-split
expense with a split to the non-member `zz`. -/
theorem expenseSubmit_no_validation_counterexample :
    ((-5 : ℚ) ≤ 0
      ∧ expenseSubmit [gABC] gABC [] "e1" "d1" "X" (some (-5)) "a" "equal" [] =
        some [⟨"e1", "g3", "X", -5, "a",
          [⟨"a", -5/3⟩, ⟨"b", -5/3⟩, ⟨"c", -5/3⟩], "equal", "d1"⟩])
    ∧ ("zz" ∉ gABC.members.map Member.id
      ∧ expenseSubmit [gABC] gABC [] "e1" "d1" "X" (some 90) "zz" "equal" [] =
        some [⟨"e1", "g3", "X", 90, "zz",
          [⟨"a", 30⟩, ⟨"b", 30⟩, ⟨"c", 30⟩], "equal", "d1"⟩])
    ∧ ("zz" ∉ gABC.members.map Member.id
      ∧ expenseSubmit [gABC] gABC [] "e1" "d1" "X" (some 100) "a" "custom"
          [("zz", some 50), ("a", some 50)] =
        some [⟨"e1", "g3", "X", 100, "a",
          [⟨"zz", 50⟩, ⟨"a", 50⟩], "custom", "d1"⟩]) := by
  decide

/-- C8 counterexample: `recordPayment` appends a payment even when
`fromId = toId` and the amount is negative, where the claim says it must
fail and append nothing. -/
theorem recordPayment_no_validation_counterexample :
    ("x" : String) = "x"
    ∧ ((-5 : ℚ) ≤ 0)
    ∧ (recordPayment ⟨[], [], []⟩ "p1" "d" "g" "x" "x" (-5)).payments =
        [⟨"p1", "g", "x", "x", -5, "d"⟩]
    ∧ (recordPayment ⟨[], [], []⟩ "p1" "d" "g" "x" "x" (-5)).payments ≠ [] := by
  decide

/-- C8 (amended): `recordPayment` performs no input validation: for every
input — including `fromId = toId`, ids outside any group, and
`amount ≤ 0` — it appends exactly one payment carrying the given fields
and fails in no case. -/
theorem recordPayment_appends_unconditionally (st : Store)
    (newId date groupId fromId toId : String) (amount : ℚ) :
    recordPayment st newId date groupId fromId toId amount =
      ⟨st.groups, st.expenses,
        st.payments ++ [⟨newId, groupId, fromId, toId, amount, date⟩]⟩ :=
  rfl

/-- C9: a (necessarily successful) `recordPayment` appends exactly one
payment with the given fields, keeps every previously recorded payment,
and leaves the groups and expenses collections unchanged. -/
theorem recordPayment_frame (st : Store)
    (newId date groupId fromId toId : String) (amount : ℚ) :
    (recordPayment st newId date groupId fromId toId amount).payments =
      st.payments ++ [⟨newId, groupId, fromId, toId, amount, date⟩]
    ∧ (recordPayment st newId date groupId fromId toId amount).groups = st.groups
    ∧ (recordPayment st newId date groupId fromId toId amount).expenses = st.expenses
    ∧ ∀ p ∈ st.payments,
        p ∈ (recordPayment st newId date groupId fromId toId amount).payments := by
  refine ⟨rfl, rfl, rfl, ?_⟩
  intro p hp
  exact List.mem_append_left _ hp

/-- Witness for the C9 theorem on a store already holding one payment. -/
theorem recordPayment_frame_witness :
    (recordPayment ⟨[], [], [⟨"p0", "g", "u", "v", 1, "d0"⟩]⟩
        "p3" "d" "g" "u" "v" 2).payments =
      [⟨"p0", "g", "u", "v", 1, "d0"⟩] ++ [⟨"p3", "g", "u", "v", 2, "d"⟩]
    ∧ ⟨"p0", "g", "u", "v", 1, "d0"⟩ ∈
        (recordPayment ⟨[], [], [⟨"p0", "g", "u", "v", 1, "d0"⟩]⟩
          "p3" "d" "g" "u" "v" 2).payments :=
  ⟨(recordPayment_frame ⟨[], [], [⟨"p0", "g", "u", "v", 1, "d0"⟩]⟩
      "p3" "d" "g" "u" "v" 2).1,
    (recordPayment_frame ⟨[], [], [⟨"p0", "g", "u", "v", 1, "d0"⟩]⟩
      "p3" "d" "g" "u" "v" 2).2.2.2 _ (by decide)⟩

/-- Positivity of every entry the planner starts from. -/
theorem sorted_creditors_pos (balances : List (String × ℚ)) :
    ∀ e ∈ sortDesc (creditorsOf balances), 0 < e.amount := by
  intro e he
  exact creditorsOf_pos ((sortDesc_perm _).mem_iff.mp he)

theorem sorted_debtors_pos (balances : List (String × ℚ)) :
    ∀ e ∈ sortDesc (debtorsOf balances), 0 < e.amount := by
  intro e he
  exact debtorsOf_pos ((sortDesc_perm _).mem_iff.mp he)

/-- C3: every settlement returned by `settleDebts` has a positive amount,
and its from/to ids and names are the id and name of actual members of
the supplied group. -/
theorem settleDebts_settlements_valid (balances : List (String × ℚ))
    (group : Group) (l : List Settlement)
    (hl : settleDebts balances group = some l) :
    ∀ s ∈ l, 0 < s.amount
      ∧ (∃ m ∈ group.members, m.id = s.fromId ∧ m.name = s.fromName)
      ∧ (∃ m ∈ group.members, m.id = s.toId ∧ m.name = s.toName) := by
  intro s hs
  simp only [settleDebts] at hl
  obtain ⟨h1, _, _, h4, h5⟩ := settleLoopFuel_shape group.members _ _ _ l
    (sorted_creditors_pos balances) (sorted_debtors_pos balances) hl s hs
  exact ⟨h1, h4, h5⟩

/-- Witness for the C3 theorem on the dinner balances: the first emitted
settlement (`B -> A 30`) is positive and references real members. -/
theorem settleDebts_settlements_valid_witness :
    0 < (30 : ℚ)
    ∧ (∃ m ∈ gABC.members, m.id = "b" ∧ m.name = "B")
    ∧ (∃ m ∈ gABC.members, m.id = "a" ∧ m.name = "A") :=
  settleDebts_settlements_valid [("a", 60), ("b", -30), ("c", -30)] gABC
    [⟨"B", "b", "A", "a", 30⟩, ⟨"C", "c", "A", "a", 30⟩] (by decide)
    ⟨"B", "b", "A", "a", 30⟩ (by decide)

/-- C10: with the distinct keys a JS object guarantees, a member id is a
creditor or a debtor but never both, so no settlement proposes a transfer
from a member to themself. -/
theorem settleDebts_no_self_transfer (balances : List (String × ℚ))
    (group : Group) (l : List Settlement)
    (hnodup : (balances.map Prod.fst).Nodup)
    (hl : settleDebts balances group = some l) :
    ∀ s ∈ l, s.fromId ≠ s.toId := by
  intro s hs heq
  simp only [settleDebts] at hl
  obtain ⟨_, h2, h3, _, _⟩ := settleLoopFuel_shape group.members _ _ _ l
    (sorted_creditors_pos balances) (sorted_debtors_pos balances) hl s hs
  have h2a : s.fromId ∈ (debtorsOf balances).map Entry.memberId :=
    ((sortDesc_perm _).map Entry.memberId).mem_iff.mp h2
  have h3a : s.toId ∈ (creditorsOf balances).map Entry.memberId :=
    ((sortDesc_perm _).map Entry.memberId).mem_iff.mp h3
  obtain ⟨ed, hed, hedid⟩ := List.mem_map.mp h2a
  obtain ⟨ec, hec, hecid⟩ := List.mem_map.mp h3a
  obtain ⟨q, hq, hqlt, rfl⟩ := mem_debtorsOf hed
  obtain ⟨p, hp, hplt, rfl⟩ := mem_creditorsOf hec
  have hk : q.1 = p.1 := by
    have hq1 : q.1 = s.fromId := hedid
    have hp1 : p.1 = s.toId := hecid
    rw [hq1, hp1, heq]
  have hpq : q = p := nodup_keys_eq hnodup hq hp hk
  rw [hpq] at hqlt
  have := tol_pos
  linarith

/-- Witness for the C10 theorem: on the dinner balances the first
settlement flows from `b` to `a`, two distinct members. -/
theorem settleDebts_no_self_transfer_witness : ("b" : String) ≠ "a" :=
  settleDebts_no_self_transfer [("a", 60), ("b", -30), ("c", -30)] gABC
    [⟨"B", "b", "A", "a", 30⟩, ⟨"C", "c", "A", "a", 30⟩] (by decide) (by decide)
    ⟨"B", "b", "A", "a", 30⟩ (by decide)

/-- Settlement-count bound of the greedy loop: each iteration emits one
settlement and removes at least one list element from consideration. -/
theorem settleLoopFuel_length_le (members : List Member) :
    ∀ fuel cs ds l, settleLoopFuel members fuel cs ds = some l →
    l.length ≤ cs.length + ds.length - 1 := by
  intro fuel
  induction fuel with
  | zero =>
    intro cs ds l hl
    simp only [settleLoopFuel] at hl
    cases hl
    exact Nat.zero_le _
  | succ fuel ih =>
    intro cs ds l hl
    match cs, ds with
    | [], ds =>
      simp only [settleLoopFuel] at hl
      cases hl
      exact Nat.zero_le _
    | c :: cs, [] =>
      simp only [settleLoopFuel] at hl
      cases hl
      exact Nat.zero_le _
    | c :: cs, d :: ds =>
      rw [settleLoopFuel] at hl
      cases hfrom : members.find? (fun m => m.id == d.memberId) with
      | none => rw [hfrom] at hl; simp at hl
      | some fromMember =>
        cases hto : members.find? (fun m => m.id == c.memberId) with
        | none => rw [hfrom, hto] at hl; simp at hl
        | some toMember =>
          rw [hfrom, hto] at hl
          simp only [Option.map_eq_some'] at hl
          obtain ⟨l1, hrest, rfl⟩ := hl
          by_cases hcd : c.amount ≤ d.amount
          · rw [if_pos hcd] at hrest
            by_cases hd2 : d.amount - min c.amount d.amount < tol
            · rw [if_pos hd2] at hrest
              have := ih cs ds l1 hrest
              simp only [List.length_cons]
              omega
            · rw [if_neg hd2] at hrest
              have := ih cs _ l1 hrest
              simp only [List.length_cons] at this ⊢
              omega
          · rw [if_neg hcd] at hrest
            by_cases hc2 : c.amount - min c.amount d.amount < tol
            · rw [if_pos hc2] at hrest
              have := ih cs ds l1 hrest
              simp only [List.length_cons]
              omega
            · rw [if_neg hc2] at hrest
              have := ih _ ds l1 hrest
              simp only [List.length_cons] at this ⊢
              omega

/-- Any fuel at least the combined list length gives the same result: the
greedy loop halts within `creditors.length + debtors.length` iterations. -/
theorem settleLoopFuel_fuel_irrel (members : List Member) :
    ∀ f1 f2 cs ds, cs.length + ds.length ≤ f1 → cs.length + ds.length ≤ f2 →
    settleLoopFuel members f1 cs ds = settleLoopFuel members f2 cs ds := by
  intro f1
  induction f1 with
  | zero =>
    intro f2 cs ds h1 _
    have hcs : cs = [] := List.length_eq_zero.mp (by omega)
    have hds : ds = [] := List.length_eq_zero.mp (by omega)
    subst hcs
    subst hds
    cases f2 <;> simp [settleLoopFuel]
  | succ f1 ih =>
    intro f2 cs ds h1 h2
    match cs, ds with
    | [], ds => cases f2 <;> simp [settleLoopFuel]
    | c :: cs, [] => cases f2 <;> simp [settleLoopFuel]
    | c :: cs, d :: ds =>
      match f2 with
      | 0 => simp only [List.length_cons] at h2; omega
      | f2 + 1 =>
        rw [settleLoopFuel, settleLoopFuel]
        cases hfrom : members.find? (fun m => m.id == d.memberId) with
        | none => rfl
        | some fromMember =>
          cases hto : members.find? (fun m => m.id == c.memberId) with
          | none => rfl
          | some toMember =>
            dsimp only
            simp only [List.length_cons] at h1 h2
            by_cases hcd : c.amount ≤ d.amount
            · rw [if_pos hcd, if_pos hcd]
              by_cases hd2 : d.amount - min c.amount d.amount < tol
              · rw [if_pos hd2, if_pos hd2, ih f2 cs ds (by omega) (by omega)]
              · rw [if_neg hd2, if_neg hd2,
                  ih f2 cs (⟨d.memberId, d.amount - min c.amount d.amount⟩ :: ds)
                    (by simp only [List.length_cons]; omega)
                    (by simp only [List.length_cons]; omega)]
            · rw [if_neg hcd, if_neg hcd]
              by_cases hc2 : c.amount - min c.amount d.amount < tol
              · rw [if_pos hc2, if_pos hc2, ih f2 cs ds (by omega) (by omega)]
              · rw [if_neg hc2, if_neg hc2,
                  ih f2 (⟨c.memberId, c.amount - min c.amount d.amount⟩ :: cs) ds
                    (by simp only [List.length_cons]; omega)
                    (by simp only [List.length_cons]; omega)]

/-- C4: the greedy loop terminates — any fuel at least
`creditors + debtors` reproduces `settleDebts` — and when it returns, the
number of emitted settlements is at most `creditors + debtors - 1`
(`Nat` subtraction: for zero creditors or debtors the loop body never
runs and the list is empty). -/
theorem settleDebts_terminates_and_count_le (balances : List (String × ℚ))
    (group : Group) :
    (∀ fuel,
      (creditorsOf balances).length + (debtorsOf balances).length ≤ fuel →
      settleLoopFuel group.members fuel (sortDesc (creditorsOf balances))
        (sortDesc (debtorsOf balances)) = settleDebts balances group)
    ∧ ∀ l, settleDebts balances group = some l →
        l.length ≤ (creditorsOf balances).length + (debtorsOf balances).length - 1 := by
  constructor
  · intro fuel hfuel
    simp only [settleDebts]
    exact settleLoopFuel_fuel_irrel group.members fuel _ _ _
      (by rw [length_sortDesc, length_sortDesc]; exact hfuel)
      (by rw [length_sortDesc, length_sortDesc])
  · intro l hl
    simp only [settleDebts] at hl
    have := settleLoopFuel_length_le group.members _ _ _ l hl
    rwa [length_sortDesc, length_sortDesc] at this

/-- Witness for the C4 theorem on the dinner balances: fuel 5 exceeds the
1 + 2 partition sizes and reproduces the same result, and the two emitted
settlements satisfy the 1 + 2 - 1 bound. -/
theorem settleDebts_terminates_and_count_le_witness :
    (settleLoopFuel gABC.members 5
        (sortDesc (creditorsOf [("a", 60), ("b", -30), ("c", -30)]))
        (sortDesc (debtorsOf [("a", 60), ("b", -30), ("c", -30)]))
      = settleDebts [("a", 60), ("b", -30), ("c", -30)] gABC)
    ∧ ([(⟨"B", "b", "A", "a", 30⟩ : Settlement), ⟨"C", "c", "A", "a", 30⟩].length
        ≤ (creditorsOf [("a", 60), ("b", -30), ("c", -30)]).length
          + (debtorsOf [("a", 60), ("b", -30), ("c", -30)]).length - 1) :=
  ⟨(settleDebts_terminates_and_count_le [("a", 60), ("b", -30), ("c", -30)] gABC).1
      5 (by decide),
    (settleDebts_terminates_and_count_le [("a", 60), ("b", -30), ("c", -30)] gABC).2
      [⟨"B", "b", "A", "a", 30⟩, ⟨"C", "c", "A", "a", 30⟩] (by decide)⟩


theorem bump_keys (bal : List (String × ℚ)) (k : String) (v : ℚ) :
    (bump bal k v).map Prod.fst = bal.map Prod.fst := by
  induction bal with
  | nil => rfl
  | cons p l ih =>
    simp only [bump, List.map_cons] at ih ⊢
    rw [ih]
    by_cases h : p.1 = k
    · rw [if_pos h]
    · rw [if_neg h]

theorem bump_absent {bal : List (String × ℚ)} {k : String}
    (h : k ∉ bal.map Prod.fst) (v : ℚ) : bump bal k v = bal := by
  induction bal with
  | nil => rfl
  | cons p l ih =>
    simp only [List.map_cons, List.mem_cons, not_or] at h
    have hp : ¬ p.1 = k := fun he => h.1 he.symm
    simp only [bump, List.map_cons] at ih ⊢
    rw [if_neg hp, ih h.2]

theorem balanceSum_bump {bal : List (String × ℚ)}
    (hnodup : (bal.map Prod.fst).Nodup) {k : String}
    (hk : k ∈ bal.map Prod.fst) (v : ℚ) :
    balanceSum (bump bal k v) = balanceSum bal + v := by
  induction bal with
  | nil => simp at hk
  | cons p l ih =>
    simp only [List.map_cons, List.nodup_cons] at hnodup
    simp only [List.map_cons, List.mem_cons] at hk
    simp only [bump, List.map_cons]
    rcases hk with hk1 | hk2
    · rw [if_pos hk1.symm]
      have habs : List.map (fun q => if q.1 = k then (q.1, q.2 + v) else q) l = l := by
        have h2 : k ∉ l.map Prod.fst := hk1 ▸ hnodup.1
        have := bump_absent h2 v
        simpa [bump] using this
      rw [habs]
      simp only [balanceSum]
      ring
    · have hne : ¬ p.1 = k := fun he => hnodup.1 (he ▸ hk2)
      rw [if_neg hne]
      simp only [balanceSum]
      have hrec := ih hnodup.2 hk2
      simp only [bump] at hrec
      rw [hrec]
      ring

theorem splits_foldl_keys (splits : List Split) :
    ∀ bal : List (String × ℚ),
    ((splits.foldl (fun b s => bump b s.memberId (-s.amount)) bal).map Prod.fst)
      = bal.map Prod.fst := by
  induction splits with
  | nil => intro bal; rfl
  | cons s ss ih =>
    intro bal
    rw [List.foldl_cons, ih, bump_keys]

theorem splits_foldl_sum (splits : List Split) :
    ∀ bal : List (String × ℚ), (bal.map Prod.fst).Nodup →
    (∀ s ∈ splits, s.memberId ∈ bal.map Prod.fst) →
    balanceSum (splits.foldl (fun b s => bump b s.memberId (-s.amount)) bal)
      = balanceSum bal - (splits.map Split.amount).sum := by
  induction splits with
  | nil => intro bal _ _; simp
  | cons s ss ih =>
    intro bal hnodup hmem
    simp only [List.foldl_cons, List.map_cons, List.sum_cons]
    rw [ih (bump bal s.memberId (-s.amount))
      (by rw [bump_keys]; exact hnodup)
      (by intro t ht; rw [bump_keys]; exact hmem t (List.mem_cons_of_mem s ht))]
    rw [balanceSum_bump hnodup (hmem s (List.mem_cons_self s ss)) (-s.amount)]
    ring

theorem applyExpense_keys (bal : List (String × ℚ)) (e : Expense) :
    (applyExpense bal e).map Prod.fst = bal.map Prod.fst := by
  unfold applyExpense
  rw [splits_foldl_keys, bump_keys]

theorem applyExpense_sum {bal : List (String × ℚ)} {e : Expense}
    (hnodup : (bal.map Prod.fst).Nodup)
    (hpaid : e.paidBy ∈ bal.map Prod.fst)
    (hsplits : ∀ s ∈ e.splits, s.memberId ∈ bal.map Prod.fst)
    (hsum : (e.splits.map Split.amount).sum = e.amount) :
    balanceSum (applyExpense bal e) = balanceSum bal := by
  unfold applyExpense
  rw [splits_foldl_sum e.splits (bump bal e.paidBy e.amount)
    (by rw [bump_keys]; exact hnodup)
    (by intro t ht; rw [bump_keys]; exact hsplits t ht)]
  rw [balanceSum_bump hnodup hpaid, hsum]
  ring

theorem applyPayment_keys (bal : List (String × ℚ)) (p : Payment) :
    (applyPayment bal p).map Prod.fst = bal.map Prod.fst := by
  unfold applyPayment
  rw [bump_keys, bump_keys]

theorem applyPayment_sum {bal : List (String × ℚ)} {p : Payment}
    (hnodup : (bal.map Prod.fst).Nodup)
    (hfrom : p.fromId ∈ bal.map Prod.fst)
    (hto : p.toId ∈ bal.map Prod.fst) :
    balanceSum (applyPayment bal p) = balanceSum bal := by
  unfold applyPayment
  rw [balanceSum_bump (by rw [bump_keys]; exact hnodup)
    (by rw [bump_keys]; exact hto) (-p.amount)]
  rw [balanceSum_bump hnodup hfrom p.amount]
  ring

theorem foldl_applyExpense (es : List Expense) :
    ∀ bal : List (String × ℚ), (bal.map Prod.fst).Nodup →
    (∀ e ∈ es, e.paidBy ∈ bal.map Prod.fst
      ∧ (∀ s ∈ e.splits, s.memberId ∈ bal.map Prod.fst)
      ∧ (e.splits.map Split.amount).sum = e.amount) →
    balanceSum (es.foldl applyExpense bal) = balanceSum bal
      ∧ (es.foldl applyExpense bal).map Prod.fst = bal.map Prod.fst := by
  induction es with
  | nil => intro bal _ _; exact ⟨rfl, rfl⟩
  | cons e es ih =>
    intro bal hnodup hes
    obtain ⟨h1, h2, h3⟩ := hes e (List.mem_cons_self e es)
    have hkeys := applyExpense_keys bal e
    obtain ⟨ihsum, ihkeys⟩ := ih (applyExpense bal e) (by rw [hkeys]; exact hnodup)
      (by
        intro e2 he2
        rw [hkeys]
        exact hes e2 (List.mem_cons_of_mem e he2))
    refine ⟨?_, by rw [List.foldl_cons, ihkeys, hkeys]⟩
    rw [List.foldl_cons, ihsum, applyExpense_sum hnodup h1 h2 h3]

theorem foldl_applyPayment (ps : List Payment) :
    ∀ bal : List (String × ℚ), (bal.map Prod.fst).Nodup →
    (∀ p ∈ ps, p.fromId ∈ bal.map Prod.fst ∧ p.toId ∈ bal.map Prod.fst) →
    balanceSum (ps.foldl applyPayment bal) = balanceSum bal := by
  induction ps with
  | nil => intro bal _ _; rfl
  | cons p ps ih =>
    intro bal hnodup hps
    obtain ⟨h1, h2⟩ := hps p (List.mem_cons_self p ps)
    have hkeys := applyPayment_keys bal p
    rw [List.foldl_cons,
      ih (applyPayment bal p) (by rw [hkeys]; exact hnodup)
        (by
          intro p2 hp2
          rw [hkeys]
          exact hps p2 (List.mem_cons_of_mem p hp2)),
      applyPayment_sum hnodup h1 h2]

theorem balanceSum_zero_init (members : List Member) :
    balanceSum (members.map fun m => (m.id, (0 : ℚ))) = 0 := by
  induction members with
  | nil => rfl
  | cons m ms ih => simp [balanceSum, ih]

theorem keys_zero_init (members : List Member) :
    (members.map fun m => (m.id, (0 : ℚ))).map Prod.fst = members.map Member.id := by
  rw [List.map_map]
  rfl



/-- C1 (amended): when every in-group expense's splits sum exactly to its
amount (and references are in-group, with the distinct member ids real
groups have), the balances returned by `calculateBalances` sum to exactly
0. (As stated the claim fails: splits are only validated to within 0.01
of the amount, see the counterexample.) -/
theorem calculateBalances_sum_eq_zero (groups : List Group)
    (expenses : List Expense) (payments : List Payment) (gid : String)
    (group : Group)
    (hg : groups.find? (fun g => g.id == gid) = some group)
    (hnodup : (group.members.map Member.id).Nodup)
    (hexp : ∀ e ∈ expenses, e.groupId = gid →
      e.paidBy ∈ group.members.map Member.id
      ∧ (∀ s ∈ e.splits, s.memberId ∈ group.members.map Member.id)
      ∧ (e.splits.map Split.amount).sum = e.amount)
    (hpay : ∀ p ∈ payments, p.groupId = gid →
      p.fromId ∈ group.members.map Member.id
      ∧ p.toId ∈ group.members.map Member.id) :
    balanceSum (calculateBalances groups expenses payments gid) = 0 := by
  simp only [calculateBalances, hg]
  have hkinit := keys_zero_init group.members
  have hninit : ((group.members.map fun m => (m.id, (0 : ℚ))).map Prod.fst).Nodup := by
    rw [hkinit]
    exact hnodup
  obtain ⟨hesum, hekeys⟩ :=
    foldl_applyExpense (expenses.filter fun e => e.groupId == gid)
      (group.members.map fun m => (m.id, (0 : ℚ))) hninit
      (by
        intro e he
        obtain ⟨he1, he2⟩ := List.mem_filter.mp he
        obtain ⟨k1, k2, k3⟩ := hexp e he1 (by simpa using he2)
        rw [hkinit]
        exact ⟨k1, k2, k3⟩)
  rw [foldl_applyPayment (payments.filter fun p => p.groupId == gid) _
    (by rw [hekeys]; exact hninit)
    (by
      intro p hp
      obtain ⟨hp1, hp2⟩ := List.mem_filter.mp hp
      rw [hekeys, hkinit]
      exact hpay p hp1 (by simpa using hp2))]
  rw [hesum, balanceSum_zero_init]

/-- Witness for the C1 theorem: dinner expense plus one payment on the
three-member group. -/
theorem calculateBalances_sum_eq_zero_witness :
    balanceSum (calculateBalances [gABC]
      [⟨"e1", "g3", "Dinner", 90, "a",
        [⟨"a", 30⟩, ⟨"b", 30⟩, ⟨"c", 30⟩], "equal", "d1"⟩]
      [⟨"p1", "g3", "b", "a", 10, "d2"⟩] "g3") = 0 :=
  calculateBalances_sum_eq_zero [gABC]
    [⟨"e1", "g3", "Dinner", 90, "a",
      [⟨"a", 30⟩, ⟨"b", 30⟩, ⟨"c", 30⟩], "equal", "d1"⟩]
    [⟨"p1", "g3", "b", "a", 10, "d2"⟩] "g3" gABC (by decide) (by decide)
    (by decide) (by decide)



theorem map_snd_zip_take {α β : Type} :
    ∀ (l1 : List α) (l2 : List β), (l1.zip l2).map Prod.snd = l2.take l1.length
  | [], l2 => by simp
  | a :: l1, [] => by simp
  | a :: l1, b :: l2 => by simp [map_snd_zip_take l1 l2]

/-- C6: group creation fails (nothing appended) exactly when the trimmed
name is empty or fewer than two distinct trimmed member names were
collected; on success exactly one group is appended, and with distinct
supplied ids (the model of `crypto.randomUUID`) the appended group's ids
are distinct. -/
theorem groupSubmit_validation (groups : List Group) (gid : String)
    (mids : List String) (createdAt name : String) (inputs : List String) :
    (groupSubmit groups gid mids createdAt name inputs = none
      ↔ (jsTrim name = "" ∨ (collectMembers inputs).length < 2))
    ∧ (jsTrim name ≠ "" → 2 ≤ (collectMembers inputs).length →
        groupSubmit groups gid mids createdAt name inputs =
          some (groups ++ [⟨gid, name,
            ((collectMembers inputs).zip mids).map (fun p => ⟨p.2, p.1⟩),
            createdAt⟩]))
    ∧ ((collectMembers inputs).length ≤ mids.length → (gid :: mids).Nodup →
        (gid :: (((collectMembers inputs).zip mids).map
          (fun p => (⟨p.2, p.1⟩ : Member))).map Member.id).Nodup) := by
  refine ⟨?_, ?_, ?_⟩
  · unfold groupSubmit
    by_cases h1 : jsTrim name = ""
    · simp [h1]
    · by_cases h2 : 2 ≤ (collectMembers inputs).length
      · simp [h1, h2]
      · simp [h1, h2]
        omega
  · intro h1 h2
    unfold groupSubmit
    have hcond : (jsTrim name != ""
        && decide (2 ≤ (collectMembers inputs).length)) = true := by
      simp [h1, h2]
    rw [if_pos hcond]
    rfl
  · intro hlen hnd
    have hmap : (((collectMembers inputs).zip mids).map
        (fun p => (⟨p.2, p.1⟩ : Member))).map Member.id
        = mids.take (collectMembers inputs).length := by
      rw [List.map_map]
      exact map_snd_zip_take _ _
    rw [hmap]
    rcases List.nodup_cons.mp hnd with ⟨hgid, hmids⟩
    refine List.nodup_cons.mpr ⟨?_, ?_⟩
    · intro hmem
      exact hgid (List.take_subset _ _ hmem)
    · exact hmids.sublist (List.take_sublist _ _)

/-- Witness for the C6 theorem: the spec's boundary pair —
`createGroup("Solo", ["OnlyOne"])` fails and
`createGroup("Pair", ["A","B"])` appends one group. -/
theorem groupSubmit_validation_witness :
    groupSubmit [] "g1" ["m1", "m2"] "t" "Solo" ["OnlyOne"] = none
    ∧ groupSubmit [] "g1" ["m1", "m2"] "t" "Pair" ["A", "B"] =
        some [⟨"g1", "Pair", [⟨"m1", "A"⟩, ⟨"m2", "B"⟩], "t"⟩] :=
  ⟨(groupSubmit_validation [] "g1" ["m1", "m2"] "t" "Solo" ["OnlyOne"]).1.mpr
      (Or.inr (by decide)),
    (groupSubmit_validation [] "g1" ["m1", "m2"] "t" "Pair" ["A", "B"]).2.1
      (by decide) (by decide)⟩

/-- C7 (amended): the expense submission pipeline appends nothing when
the trimmed description is empty, the amount field is empty, `paidBy` is
empty, or — for a custom split — when the split total differs from the
amount by more than 0.01 or some split row is empty or non-positive.
(As stated the claim fails: `amount ≤ 0`, a non-member `paidBy` and
non-member custom-split references are all accepted, see the
counterexample.) -/
theorem expenseSubmit_rejects (groups : List Group) (group : Group)
    (expenses : List Expense) (newId date description : String)
    (amount : Option ℚ) (paidBy : String) (splitType : String)
    (customSplits : List (String × Option ℚ))
    (h : jsTrim description = "" ∨ amount = none ∨ paidBy = ""
      ∨ (splitType = "custom"
        ∧ (tol < |amount.getD 0 - splitsTotal customSplits|
          ∨ ∃ s ∈ customSplits, s.2 = none ∨ s.2.getD 0 ≤ 0))) :
    expenseSubmit groups group expenses newId date description amount paidBy
      splitType customSplits = none := by
  simp only [expenseSubmit]
  by_cases h1 : (jsTrim description == "" || amount.isNone || paidBy == "") = true
  · rw [if_pos h1]
  · rw [if_neg h1]
    rcases h with h | h | h | ⟨hct, hbad⟩
    · exact absurd (by simp [h]) h1
    · exact absurd (by simp [h]) h1
    · exact absurd (by simp [h]) h1
    · have hval : validateCustomSplits (amount.getD 0) customSplits = false := by
        unfold validateCustomSplits
        rcases hbad with hb | hb
        · rw [if_pos hb]
        · by_cases hfirst : tol < |amount.getD 0 - splitsTotal customSplits|
          · rw [if_pos hfirst]
          · rw [if_neg hfirst, if_pos]
            obtain ⟨s, hs, hsbad⟩ := hb
            refine List.any_eq_true.mpr ⟨s, hs, ?_⟩
            rcases hsbad with hn | hle
            · simp [hn]
            · simp [hle]
      have hcond2 : (splitType == "custom"
          && !(validateCustomSplits (amount.getD 0) customSplits)) = true := by
        simp [hct, hval]
      rw [if_pos hcond2]

/-- Witness for the C7 theorem: the spec's Trip example,
`recordExpense(g, "Trip", 100.00, paidByA, Custom, [{B,40},{C,40}])`,
is rejected because its splits sum to 80. -/
theorem expenseSubmit_rejects_witness :
    expenseSubmit [gABC] gABC [] "e1" "d1" "Trip" (some 100) "a" "custom"
      [("b", some 40), ("c", some 40)] = none :=
  expenseSubmit_rejects [gABC] gABC [] "e1" "d1" "Trip" (some 100) "a" "custom"
    [("b", some 40), ("c", some 40)]
    (Or.inr (Or.inr (Or.inr ⟨rfl, Or.inl (by decide)⟩)))




theorem posCent_pos {q : ℚ} (h : PosCent q) : 0 < q := by
  obtain ⟨n, hn, rfl⟩ := h
  have h1 : (0 : ℚ) < n := by exact_mod_cast hn
  linarith

theorem posCent_step {c d : ℚ} (hc : PosCent c) (hd : PosCent d) (hcd : c ≤ d) :
    (d - c < tol → d = c) ∧ (¬ d - c < tol → PosCent (d - c)) := by
  obtain ⟨m, hm, rfl⟩ := hc
  obtain ⟨n, hn, rfl⟩ := hd
  have hmn : m ≤ n := by
    have h1 : (m : ℚ) ≤ n := by linarith
    exact_mod_cast h1
  constructor
  · intro hlt
    rw [tol] at hlt
    have h1 : (n : ℚ) - m < 1 := by linarith
    have h2 : ((n - m : ℕ) : ℚ) < 1 := by
      rw [Nat.cast_sub hmn]
      linarith
    have h3 : (n - m : ℕ) < 1 := by exact_mod_cast h2
    have h4 : n = m := by omega
    rw [h4]
  · intro hge
    have h1 : tol ≤ (n : ℚ) / 100 - m / 100 := not_lt.mp hge
    rw [tol] at h1
    have h2 : (1 : ℚ) ≤ (n : ℚ) - m := by linarith
    have h3 : ((1 : ℕ) : ℚ) ≤ ((n - m : ℕ) : ℚ) := by
      rw [Nat.cast_sub hmn]
      push_cast
      linarith
    have h4 : 1 ≤ n - m := by exact_mod_cast h3
    refine ⟨n - m, by omega, ?_⟩
    rw [Nat.cast_sub hmn]
    ring

theorem entrySum_nonneg {l : List Entry} (h : ∀ e ∈ l, PosCent e.amount) :
    0 ≤ entrySum l := by
  induction l with
  | nil => simp [entrySum]
  | cons e l ih =>
    simp only [entrySum]
    have h1 := posCent_pos (h e (List.mem_cons_self e l))
    have h2 := ih (fun e2 he2 => h e2 (List.mem_cons_of_mem e he2))
    linarith

theorem entrySum_eq_zero_nil {l : List Entry} (h : ∀ e ∈ l, PosCent e.amount)
    (hz : entrySum l = 0) : l = [] := by
  cases l with
  | nil => rfl
  | cons e l =>
    exfalso
    simp only [entrySum] at hz
    have h1 := posCent_pos (h e (List.mem_cons_self e l))
    have h2 := entrySum_nonneg (fun e2 he2 => h e2 (List.mem_cons_of_mem e he2))
    linarith

theorem entrySum_perm {l1 l2 : List Entry} (h : List.Perm l1 l2) :
    entrySum l1 = entrySum l2 := by
  induction h with
  | nil => rfl
  | cons x _ ih => simp only [entrySum, ih]
  | swap x y l => simp only [entrySum]; ring
  | trans _ _ ih1 ih2 => rw [ih1, ih2]

theorem idSum_perm (id : String) {l1 l2 : List Entry} (h : List.Perm l1 l2) :
    idSum id l1 = idSum id l2 := by
  induction h with
  | nil => rfl
  | cons x _ ih => simp only [idSum, ih]
  | swap x y l => simp only [idSum]; ring
  | trans _ _ ih1 ih2 => rw [ih1, ih2]

theorem creditorsOf_posCent {b : List (String × ℚ)}
    (hcent : ∀ p ∈ b, ∃ z : ℤ, p.2 = (z : ℚ) / 100) :
    ∀ e ∈ creditorsOf b, PosCent e.amount := by
  intro e he
  obtain ⟨p, hp, hpt, rfl⟩ := mem_creditorsOf he
  obtain ⟨z, hz⟩ := hcent p hp
  rw [tol] at hpt
  have hz1 : (1 : ℚ) < z := by rw [hz] at hpt; linarith
  have hz2 : 1 < z := by exact_mod_cast hz1
  refine ⟨z.toNat, by omega, ?_⟩
  show p.2 = ((z.toNat : ℕ) : ℚ) / 100
  rw [hz]
  have h3 : ((z.toNat : ℕ) : ℤ) = z := Int.toNat_of_nonneg (by omega)
  have h4 : ((z.toNat : ℕ) : ℚ) = (z : ℚ) := by exact_mod_cast h3
  rw [h4]

theorem debtorsOf_posCent {b : List (String × ℚ)}
    (hcent : ∀ p ∈ b, ∃ z : ℤ, p.2 = (z : ℚ) / 100) :
    ∀ e ∈ debtorsOf b, PosCent e.amount := by
  intro e he
  obtain ⟨p, hp, hpt, rfl⟩ := mem_debtorsOf he
  obtain ⟨z, hz⟩ := hcent p hp
  rw [tol] at hpt
  have hz1 : (z : ℚ) < -1 := by rw [hz] at hpt; linarith
  have hz2 : z < -1 := by exact_mod_cast hz1
  have hneg : p.2 < 0 := by rw [hz]; linarith
  refine ⟨(-z).toNat, by omega, ?_⟩
  show |p.2| = (((-z).toNat : ℕ) : ℚ) / 100
  rw [abs_of_neg hneg, hz]
  have h3 : (((-z).toNat : ℕ) : ℤ) = -z := Int.toNat_of_nonneg (by omega)
  have h4 : (((-z).toNat : ℕ) : ℚ) = ((-z : ℤ) : ℚ) := by exact_mod_cast h3
  rw [h4]
  push_cast
  ring

theorem creditors_debtors_sum (b : List (String × ℚ))
    (hband : ∀ p ∈ b, p.2 = 0 ∨ tol < p.2 ∨ p.2 < -tol) :
    entrySum (creditorsOf b) - entrySum (debtorsOf b) = balanceSum b := by
  induction b with
  | nil => simp [creditorsOf, debtorsOf, entrySum, balanceSum]
  | cons p l ih =>
    have hband1 : ∀ q ∈ l, q.2 = 0 ∨ tol < q.2 ∨ q.2 < -tol :=
      fun q hq => hband q (List.mem_cons_of_mem p hq)
    have ih1 := ih hband1
    simp only [creditorsOf, debtorsOf, List.filterMap_cons] at ih1 ⊢
    rcases hband p (List.mem_cons_self p l) with h0 | hpos | hneg
    · have hnc : ¬ tol < p.2 := by rw [h0]; exact not_lt.mpr (le_of_lt tol_pos)
      have hnd : ¬ p.2 < -tol := by
        rw [h0]
        have := tol_pos
        intro hcon
        linarith
      rw [if_neg hnc, if_neg hnd]
      simp only [balanceSum, h0]
      rw [← ih1]
      ring
    · have hnd : ¬ p.2 < -tol := by
        have := tol_pos
        intro hcon
        linarith
      rw [if_pos hpos, if_neg hnd]
      simp only [entrySum, balanceSum]
      rw [← ih1]
      ring
    · have hnc : ¬ tol < p.2 := by
        have := tol_pos
        intro hcon
        linarith
      rw [if_neg hnc, if_pos hneg]
      have hn0 : p.2 < 0 := by
        have := tol_pos
        linarith
      simp only [entrySum, balanceSum]
      rw [abs_of_neg hn0, ← ih1]
      ring

theorem creditors_debtors_idSum (b : List (String × ℚ))
    (hband : ∀ p ∈ b, p.2 = 0 ∨ tol < p.2 ∨ p.2 < -tol) (id : String) :
    idSum id (creditorsOf b) - idSum id (debtorsOf b) = keyedBalance id b := by
  induction b with
  | nil => simp [creditorsOf, debtorsOf, idSum, keyedBalance]
  | cons p l ih =>
    have hband1 : ∀ q ∈ l, q.2 = 0 ∨ tol < q.2 ∨ q.2 < -tol :=
      fun q hq => hband q (List.mem_cons_of_mem p hq)
    have ih1 := ih hband1
    simp only [creditorsOf, debtorsOf, List.filterMap_cons] at ih1 ⊢
    rcases hband p (List.mem_cons_self p l) with h0 | hpos | hneg
    · have hnc : ¬ tol < p.2 := by rw [h0]; exact not_lt.mpr (le_of_lt tol_pos)
      have hnd : ¬ p.2 < -tol := by
        rw [h0]
        have := tol_pos
        intro hcon
        linarith
      rw [if_neg hnc, if_neg hnd]
      simp only [keyedBalance, h0]
      rw [← ih1]
      simp only [ite_self]
      ring
    · have hnd : ¬ p.2 < -tol := by
        have := tol_pos
        intro hcon
        linarith
      rw [if_pos hpos, if_neg hnd]
      simp only [idSum, keyedBalance]
      rw [← ih1]
      ring
    · have hnc : ¬ tol < p.2 := by
        have := tol_pos
        intro hcon
        linarith
      rw [if_neg hnc, if_pos hneg]
      have hn0 : p.2 < 0 := by
        have := tol_pos
        linarith
      simp only [idSum, keyedBalance]
      rw [abs_of_neg hn0, ← ih1]
      by_cases hid : (p.1 == id) = true
      · rw [if_pos hid, if_pos hid]
        ring
      · rw [if_neg hid, if_neg hid]
        ring



/-- Full-drain invariant of the greedy loop: when both sides hold
positive whole-cent amounts with equal totals, the loop drains both lists
completely, and the per-member totals of the emitted settlements equal
the per-member totals of the input entries. -/
theorem settleLoopFuel_drain (members : List Member) :
    ∀ fuel cs ds l, cs.length + ds.length ≤ fuel →
    (∀ e ∈ cs, PosCent e.amount) → (∀ e ∈ ds, PosCent e.amount) →
    entrySum cs = entrySum ds →
    settleLoopFuel members fuel cs ds = some l →
    ∀ id, received id l = idSum id cs ∧ paid id l = idSum id ds := by
  intro fuel
  induction fuel with
  | zero =>
    intro cs ds l hlen hcs hds _ hl id
    have hcs0 : cs = [] := List.length_eq_zero.mp (by omega)
    have hds0 : ds = [] := List.length_eq_zero.mp (by omega)
    subst hcs0
    subst hds0
    simp only [settleLoopFuel] at hl
    cases hl
    simp [received, paid, idSum]
  | succ fuel ih =>
    intro cs ds l hlen hcs hds hsum hl id
    match cs, ds with
    | [], ds =>
      have hds0 : ds = [] := by
        apply entrySum_eq_zero_nil hds
        rw [← hsum]
        rfl
      subst hds0
      simp only [settleLoopFuel] at hl
      cases hl
      simp [received, paid, idSum]
    | c :: cs, [] =>
      exfalso
      have h1 := posCent_pos (hcs c (List.mem_cons_self c cs))
      have h2 := entrySum_nonneg (fun e he => hcs e (List.mem_cons_of_mem c he))
      simp only [entrySum] at hsum
      linarith
    | c :: cs, d :: ds =>
      rw [settleLoopFuel] at hl
      cases hfrom : members.find? (fun m => m.id == d.memberId) with
      | none => rw [hfrom] at hl; simp at hl
      | some fromMember =>
        cases hto : members.find? (fun m => m.id == c.memberId) with
        | none => rw [hfrom, hto] at hl; simp at hl
        | some toMember =>
          rw [hfrom, hto] at hl
          simp only [Option.map_eq_some'] at hl
          obtain ⟨l1, hrest, rfl⟩ := hl
          have hfid : fromMember.id = d.memberId := by
            have := List.find?_some hfrom
            exact eq_of_beq (by simpa using this)
          have htid : toMember.id = c.memberId := by
            have := List.find?_some hto
            exact eq_of_beq (by simpa using this)
          have hcp : PosCent c.amount := hcs c (List.mem_cons_self c cs)
          have hdp : PosCent d.amount := hds d (List.mem_cons_self d ds)
          have hcs1 : ∀ e ∈ cs, PosCent e.amount :=
            fun e he => hcs e (List.mem_cons_of_mem c he)
          have hds1 : ∀ e ∈ ds, PosCent e.amount :=
            fun e he => hds e (List.mem_cons_of_mem d he)
          simp only [List.length_cons] at hlen
          simp only [entrySum] at hsum
          by_cases hcd : c.amount ≤ d.amount
          · rw [if_pos hcd, min_eq_left hcd] at hrest
            by_cases hd2 : d.amount - c.amount < tol
            · rw [if_pos hd2] at hrest
              have heq : d.amount = c.amount := (posCent_step hcp hdp hcd).1 hd2
              obtain ⟨ihr, ihp⟩ := ih cs ds l1 (by omega) hcs1 hds1
                (by linarith) hrest id
              constructor
              · simp only [received, idSum, htid, min_eq_left hcd]
                rw [ihr]
              · simp only [paid, idSum, hfid, min_eq_left hcd]
                rw [ihp, heq]
            · rw [if_neg hd2] at hrest
              have hd2c : PosCent (d.amount - c.amount) :=
                (posCent_step hcp hdp hcd).2 hd2
              obtain ⟨ihr, ihp⟩ := ih cs
                (⟨d.memberId, d.amount - c.amount⟩ :: ds) l1
                (by simp only [List.length_cons]; omega)
                hcs1
                (by
                  intro e he
                  cases he with
                  | head => exact hd2c
                  | tail _ h => exact hds1 e h)
                (by simp only [entrySum]; linarith)
                hrest id
              constructor
              · simp only [received, idSum, htid, min_eq_left hcd]
                rw [ihr]
              · simp only [paid, idSum, hfid, min_eq_left hcd]
                simp only [idSum] at ihp
                rw [ihp]
                by_cases hid : (d.memberId == id) = true
                · rw [if_pos hid, if_pos hid, if_pos hid]
                  ring
                · rw [if_neg hid, if_neg hid, if_neg hid]
                  ring
          · have hdc : d.amount ≤ c.amount := le_of_not_le hcd
            rw [if_neg hcd, min_eq_right hdc] at hrest
            by_cases hc2 : c.amount - d.amount < tol
            · rw [if_pos hc2] at hrest
              have heq : c.amount = d.amount := (posCent_step hdp hcp hdc).1 hc2
              obtain ⟨ihr, ihp⟩ := ih cs ds l1 (by omega) hcs1 hds1
                (by linarith) hrest id
              constructor
              · simp only [received, idSum, htid, min_eq_right hdc]
                rw [ihr, heq]
              · simp only [paid, idSum, hfid, min_eq_right hdc]
                rw [ihp]
            · rw [if_neg hc2] at hrest
              have hc2c : PosCent (c.amount - d.amount) :=
                (posCent_step hdp hcp hdc).2 hc2
              obtain ⟨ihr, ihp⟩ := ih
                (⟨c.memberId, c.amount - d.amount⟩ :: cs) ds l1
                (by simp only [List.length_cons]; omega)
                (by
                  intro e he
                  cases he with
                  | head => exact hc2c
                  | tail _ h => exact hcs1 e h)
                hds1
                (by simp only [entrySum]; linarith)
                hrest id
              constructor
              · simp only [received, idSum, htid, min_eq_right hdc]
                simp only [idSum] at ihr
                rw [ihr]
                by_cases hid : (c.memberId == id) = true
                · rw [if_pos hid, if_pos hid, if_pos hid]
                  ring
                · rw [if_neg hid, if_neg hid, if_neg hid]
                  ring
              · simp only [paid, idSum, hfid, min_eq_right hdc]
                rw [ihp]



/-- C2 (amended): for a balance mapping of whole-cent balances in which
every nonzero balance lies outside the 0.01 tolerance band and the
balances sum to 0, the transfers emitted by `settleDebts` exactly
reconstruct every member's balance (received minus paid). (As stated the
claim fails for members inside the tolerance band, see the
counterexample.) -/
theorem settleDebts_reconstructs_balances (balances : List (String × ℚ))
    (group : Group) (l : List Settlement)
    (hcent : ∀ p ∈ balances, ∃ z : ℤ, p.2 = (z : ℚ) / 100)
    (hband : ∀ p ∈ balances, p.2 = 0 ∨ tol < p.2 ∨ p.2 < -tol)
    (hsum : balanceSum balances = 0)
    (hl : settleDebts balances group = some l) :
    ∀ id, received id l - paid id l = keyedBalance id balances := by
  intro id
  simp only [settleDebts] at hl
  have hc_cent : ∀ e ∈ sortDesc (creditorsOf balances), PosCent e.amount :=
    fun e he => creditorsOf_posCent hcent e ((sortDesc_perm _).mem_iff.mp he)
  have hd_cent : ∀ e ∈ sortDesc (debtorsOf balances), PosCent e.amount :=
    fun e he => debtorsOf_posCent hcent e ((sortDesc_perm _).mem_iff.mp he)
  have hsum2 : entrySum (sortDesc (creditorsOf balances))
      = entrySum (sortDesc (debtorsOf balances)) := by
    rw [entrySum_perm (sortDesc_perm _), entrySum_perm (sortDesc_perm _)]
    have h1 := creditors_debtors_sum balances hband
    rw [hsum] at h1
    linarith
  obtain ⟨hr, hp⟩ := settleLoopFuel_drain group.members _ _ _ l (le_refl _)
    hc_cent hd_cent hsum2 hl id
  rw [hr, hp, idSum_perm id (sortDesc_perm _), idSum_perm id (sortDesc_perm _)]
  exact creditors_debtors_idSum balances hband id

/-- Witness for the C2 theorem: balances `{a: +0.03, b: -0.03}` produce
the single transfer `b -> a 0.03`, which reconstructs member `a`'s
balance. -/
theorem settleDebts_reconstructs_balances_witness :
    received "a" [⟨"B", "b", "A", "a", 3/100⟩]
      - paid "a" [⟨"B", "b", "A", "a", 3/100⟩]
      = keyedBalance "a" [("a", 3/100), ("b", -(3/100))] :=
  settleDebts_reconstructs_balances [("a", 3/100), ("b", -(3/100))] gAB
    [⟨"B", "b", "A", "a", 3/100⟩]
    (by
      intro p hp
      simp only [List.mem_cons, List.not_mem_nil, or_false] at hp
      rcases hp with rfl | rfl
      · exact ⟨3, by norm_num⟩
      · exact ⟨-3, by norm_num⟩)
    (by decide) (by decide) (by decide) "a"


end ExpenseSplitter
